import Mathlib

/-!
Shallow embedding of the AVL-tree core of `src/Lab1.py` (class `ArbolAVL`
together with the node class `Nodo`), and proofs about the claims of its
specification.

Modelling choices:
* Python floats are modelled as exact rationals (`Rat`).  Every concrete
  input used below is chosen so that the Python double computation and the
  rational computation agree (in particular `10.0 + 0.001 == 10.001` holds
  in IEEE double precision).
* Python objects have identity; each node created by an insertion receives
  a fresh numeric `id` (the `nextId` counter of the state).  The mutable
  `padre` back-reference of a node is modelled as a stored field holding
  the parent's id (`none` for "no parent"), assigned exactly where the
  Python code assigns `.padre`.
* `nodos_almacenados` holds object references; it is modelled as the list
  of node ids, and `list.remove` as erasure of the first occurrence.
* The `try/except` wrappers of `insertar`/`eliminar`: the exceptional
  paths (attribute access on `None`, which the rotation helpers would hit
  only in states whose stored heights are corrupt) are modelled by
  identity default branches, marked below.
-/

/-- The data fields of the Python class `Nodo` that carry a record:
ISO3 code, country name and the comparison key `temperatura_media`. -/
structure Registro where
  iso3 : String
  pais : String
  temperatura_media : Rat
deriving DecidableEq

/-- A (sub)tree: Python's `Optional[Nodo]`.  `id` models object identity,
`padre` is the stored parent back-reference (the parent's id). -/
inductive Arbol where
  | nil : Arbol
  | nodo (id : Nat) (datos : Registro) (altura : Nat) (padre : Option Nat)
      (izquierdo derecho : Arbol) : Arbol
deriving DecidableEq

namespace Arbol

/-- Root id of a nonempty tree (dead default for `nil`). -/
def idDe : Arbol → Nat
  | .nil => 0
  | .nodo i _ _ _ _ _ => i

/-- Root record of a nonempty tree (dead default for `nil`). -/
def datosDe : Arbol → Registro
  | .nil => ⟨"", "", 0⟩
  | .nodo _ d _ _ _ _ => d

/-- Root key, `nodo.temperatura_media` (dead default for `nil`). -/
def temperatura_mediaDe : Arbol → Rat
  | .nil => 0
  | .nodo _ d _ _ _ _ => d.temperatura_media

/-- Stored parent back-reference of the root node. -/
def padreDe : Arbol → Option Nat
  | .nil => none
  | .nodo _ _ _ p _ _ => p

/-- Left child of the root node. -/
def izquierdoDe : Arbol → Arbol
  | .nil => .nil
  | .nodo _ _ _ _ l _ => l

/-- Right child of the root node. -/
def derechoDe : Arbol → Arbol
  | .nil => .nil
  | .nodo _ _ _ _ _ r => r

end Arbol

/-- `ArbolAVL.obtener_altura`: 0 for an absent node, else the stored
`altura` field. -/
def obtener_altura : Arbol → Nat
  | .nil => 0
  | .nodo _ _ h _ _ _ => h

/-- `ArbolAVL.obtener_factor_balance`:
`obtener_altura(izquierdo) - obtener_altura(derecho)`, 0 for absent. -/
def obtener_factor_balance : Arbol → Int
  | .nil => 0
  | .nodo _ _ _ _ l r => (obtener_altura l : Int) - (obtener_altura r : Int)

/-- `ArbolAVL.actualizar_altura`: sets the root's `altura` to
`1 + max(altura izquierdo, altura derecho)`. -/
def actualizar_altura : Arbol → Arbol
  | .nil => .nil
  | .nodo i d _ p l r =>
      .nodo i d (1 + max (obtener_altura l) (obtener_altura r)) p l r

/-- Assignment `t.padre = p` to the root node; for an absent node this is
a no-op, mirroring the guarded Python assignments (`if T2: T2.padre = y`,
`if nodo.izquierdo: nodo.izquierdo.padre = nodo`, ...). -/
def setPadre (p : Option Nat) : Arbol → Arbol
  | .nil => .nil
  | .nodo i d h _ l r => .nodo i d h p l r

/-- `ArbolAVL.rotar_derecha`: `x = y.izquierdo; T2 = x.derecho;
x.derecho = y; y.izquierdo = T2; x.padre = y.padre; y.padre = x;
if T2: T2.padre = y`, then heights of `y` and `x` are recomputed in that
order and `x` is returned.  The default branch is dead code: Python would
raise on `y.izquierdo.derecho` when `y.izquierdo` is `None`, and the
callers only rotate right when the stored balance factor exceeds 1, which
forces a present left child. -/
def rotar_derecha : Arbol → Arbol
  | .nodo yi yd yh yp (.nodo xi xd xh _ xl xr) yr =>
      let y' := actualizar_altura (.nodo yi yd yh (some xi) (setPadre (some yi) xr) yr)
      actualizar_altura (.nodo xi xd xh yp xl y')
  | t => t

/-- `ArbolAVL.rotar_izquierda`, the mirror image of `rotar_derecha`. -/
def rotar_izquierda : Arbol → Arbol
  | .nodo xi xd xh xp xl (.nodo yi yd yh _ yl yr) =>
      let x' := actualizar_altura (.nodo xi xd xh (some yi) xl (setPadre (some xi) yl))
      actualizar_altura (.nodo yi yd yh xp x' yr)
  | t => t

/-- The tail of `_insertar_recursivo` after the child link has been
updated: `actualizar_altura(nodo)`, compute the balance factor, then the
four rotation cases, comparing the inserted key `k` (as possibly
perturbed in this stack frame) against the child keys.  The altura
update is inlined: the balance factor and child reads after
`actualizar_altura` coincide with the formulas below. -/
def insertarFix (t : Arbol) (k : Rat) : Arbol :=
  match t with
  | .nil => .nil
  | .nodo i d _ p l r =>
    let h' := 1 + max (obtener_altura l) (obtener_altura r)
    let balance : Int := (obtener_altura l : Int) - (obtener_altura r : Int)
    if 1 < balance ∧ k < Arbol.temperatura_mediaDe l then
      rotar_derecha (.nodo i d h' p l r)
    else if balance < -1 ∧ Arbol.temperatura_mediaDe r < k then
      rotar_izquierda (.nodo i d h' p l r)
    else if 1 < balance ∧ Arbol.temperatura_mediaDe l < k then
      rotar_derecha (.nodo i d h' p (rotar_izquierda l) r)
    else if balance < -1 ∧ k < Arbol.temperatura_mediaDe r then
      rotar_izquierda (.nodo i d h' p l (rotar_derecha r))
    else .nodo i d h' p l r

/-- `ArbolAVL._insertar_recursivo`.  A new leaf gets the fresh id and a
`padre` of `None` (the Python constructor default); the caller assigns
`nodo.izquierdo.padre = nodo` (resp. `derecho`) right after re-linking,
modelled by `setPadre`.  On an exact key match the local key is perturbed
by `+0.001` and the insertion continues to the right, with the perturbed
value used by this frame's rebalancing comparisons. -/
def insertarRec (t : Arbol) (a b : String) (k : Rat) (fresh : Nat) : Arbol :=
  match t with
  | .nil => .nodo fresh ⟨a, b, k⟩ 1 none .nil .nil
  | .nodo i d h p l r =>
    if k < d.temperatura_media then
      insertarFix (.nodo i d h p (setPadre (some i) (insertarRec l a b k fresh)) r) k
    else if d.temperatura_media < k then
      insertarFix (.nodo i d h p l (setPadre (some i) (insertarRec r a b k fresh))) k
    else
      let k' := k + 1/1000
      insertarFix (.nodo i d h p l (setPadre (some i) (insertarRec r a b k' fresh))) k'

/-- `ArbolAVL._buscar_recursivo`: return the first node of the descent
whose key is within the tolerance `0.1` of the argument, else descend
left when `k` is smaller, right otherwise. -/
def buscarRec (t : Arbol) (k : Rat) : Option Arbol :=
  match t with
  | .nil => none
  | .nodo i d h p l r =>
    if |d.temperatura_media - k| < 1/10 then some (.nodo i d h p l r)
    else if k < d.temperatura_media then buscarRec l k
    else buscarRec r k

/-- `ArbolAVL._obtener_minimo`: leftmost node of a subtree (dead default
for `nil`: Python would raise on `None.izquierdo`). -/
def obtener_minimo : Arbol → Arbol
  | .nil => .nil
  | .nodo i d h p l r =>
    match l with
    | .nil => .nodo i d h p l r
    | .nodo .. => obtener_minimo l

/-- The tail of `_eliminar_recursivo` on a nonempty result:
`actualizar_altura(nodo)` (inlined as in `insertarFix`), balance factor,
then the four deletion rotation cases driven by the child balance
factors. -/
def eliminarFix (t : Arbol) : Arbol :=
  match t with
  | .nil => .nil
  | .nodo i d _ p l r =>
    let h' := 1 + max (obtener_altura l) (obtener_altura r)
    let balance : Int := (obtener_altura l : Int) - (obtener_altura r : Int)
    if 1 < balance ∧ 0 ≤ obtener_factor_balance l then
      rotar_derecha (.nodo i d h' p l r)
    else if 1 < balance ∧ obtener_factor_balance l < 0 then
      rotar_derecha (.nodo i d h' p (rotar_izquierda l) r)
    else if balance < -1 ∧ obtener_factor_balance r ≤ 0 then
      rotar_izquierda (.nodo i d h' p l r)
    else if balance < -1 ∧ 0 < obtener_factor_balance r then
      rotar_izquierda (.nodo i d h' p l (rotar_derecha r))
    else .nodo i d h' p l r

/-- `ArbolAVL._eliminar_recursivo`.  Exact-key descent; at the target:
with at most one child, `temp` is the left child if present else the
right child; if `temp` is absent the node is discarded, otherwise the
node absorbs `temp`'s `iso3`/`pais`/`temperatura_media` fields (its own
children are kept!) and the guarded parent reassignments run; with two
children the in-order successor's fields are copied in and the
successor's key is deleted from the right subtree.  The `eliminarFix`
tail then runs on any nonempty result. -/
def eliminarRec (t : Arbol) (k : Rat) : Arbol :=
  match t with
  | .nil => .nil
  | .nodo i d h p l r =>
    if k < d.temperatura_media then
      eliminarFix (.nodo i d h p (eliminarRec l k) r)
    else if d.temperatura_media < k then
      eliminarFix (.nodo i d h p l (eliminarRec r k))
    else
      if l = .nil ∨ r = .nil then
        let temp := if l ≠ .nil then l else r
        if temp = .nil then Arbol.nil
        else
          eliminarFix (.nodo i (Arbol.datosDe temp) h p (setPadre (some i) l) (setPadre (some i) r))
      else
        let m := obtener_minimo r
        eliminarFix (.nodo i (Arbol.datosDe m) h p l (eliminarRec r (Arbol.temperatura_mediaDe m)))

/-- The state of the Python class `ArbolAVL`: the root, the auxiliary
list `nodos_almacenados` (as node ids, in list order), and the id
counter supplying object identities to freshly constructed nodes. -/
structure ArbolAVL where
  raiz : Arbol
  nodos_almacenados : List Nat
  nextId : Nat
deriving DecidableEq

/-- The freshly constructed `ArbolAVL()`. -/
def arbolVacio : ArbolAVL := ⟨.nil, [], 0⟩

/-- `ArbolAVL.buscar`. -/
def buscar (s : ArbolAVL) (k : Rat) : Option Arbol :=
  buscarRec s.raiz k

/-- `ArbolAVL.insertar`.  `_insertar_recursivo` creates exactly one node
per call and appends it to `nodos_almacenados` at creation; the append is
written here at the wrapper.  The `except` path (unreachable without
corrupt stored heights) is not modelled: the call returns `True`. -/
def insertar (s : ArbolAVL) (a b : String) (k : Rat) : Bool × ArbolAVL :=
  (true,
    { raiz := insertarRec s.raiz a b k s.nextId
      nodos_almacenados := s.nodos_almacenados ++ [s.nextId]
      nextId := s.nextId + 1 })

/-- `ArbolAVL.eliminar`: locate the target with the tolerance search; if
absent return `False` without mutation; otherwise remove the found object
from `nodos_almacenados` (first occurrence, by object identity) and
rebuild the root with `_eliminar_recursivo` applied to the *argument*
key. -/
def eliminar (s : ArbolAVL) (k : Rat) : Bool × ArbolAVL :=
  match buscarRec s.raiz k with
  | none => (false, s)
  | some n =>
    (true,
      { raiz := eliminarRec s.raiz k
        nodos_almacenados := s.nodos_almacenados.erase (Arbol.idDe n)
        nextId := s.nextId })

/-- A public mutating operation of the index. -/
inductive Op where
  | ins (a b : String) (k : Rat) : Op
  | del (k : Rat) : Op

/-- Apply one public operation to the state. -/
def aplicar (s : ArbolAVL) : Op → ArbolAVL
  | .ins a b k => (insertar s a b k).2
  | .del k => (eliminar s k).2

/-- Run a sequence of public operations from the freshly constructed
index. -/
def ejecutar (ops : List Op) : ArbolAVL :=
  ops.foldl aplicar arbolVacio

/-- `ArbolAVL.buscar_mayor_promedio_global` over the record values read
through the auxiliary list: linear scan keeping `temperatura_media >=`
the threshold, then Python's `sorted(..., key=temperatura_media,
reverse=True)`.  Python's sort is stable, and a stable sort is
extensionally determined by the comparison key, so it is embedded as the
stable insertion sort `ordenarDescEstable` below. -/
def insDesc (x : Registro) : List Registro → List Registro
  | [] => [x]
  | y :: ys =>
    if x.temperatura_media < y.temperatura_media then y :: insDesc x ys
    else x :: y :: ys

/-- Stable sort, descending by `temperatura_media`: the semantics of
`sorted(resultado, key=lambda x: x.temperatura_media, reverse=True)`. -/
def ordenarDescEstable : List Registro → List Registro
  | [] => []
  | x :: xs => insDesc x (ordenarDescEstable xs)

/-- `ArbolAVL.buscar_mayor_promedio_global`. -/
def buscar_mayor_promedio_global (nodos : List Registro) (limite : Rat) :
    List Registro :=
  ordenarDescEstable (nodos.filter (fun n => limite ≤ n.temperatura_media))

/-! ### Observation functions used by the statements -/

/-- Number of nodes reachable from a root. -/
def contar : Arbol → Nat
  | .nil => 0
  | .nodo _ _ _ _ l r => 1 + contar l + contar r

/-- In-order list of the records held by the nodes of a tree. -/
def datosL : Arbol → List Registro
  | .nil => []
  | .nodo _ d _ _ l r => datosL l ++ d :: datosL r

/-- In-order list of the keys held by the nodes of a tree. -/
def clavesL (t : Arbol) : List Rat :=
  (datosL t).map (fun d => d.temperatura_media)

/-- Multiset of the ids of the nodes of a tree. -/
def idsM : Arbol → Multiset Nat
  | .nil => 0
  | .nodo i _ _ _ l r => i ::ₘ (idsM l + idsM r)

/-- Bounded strict binary-search-order check. -/
def dentro (lo hi : Option Rat) (k : Rat) : Bool :=
  (match lo with | none => true | some a => decide (a < k)) &&
  (match hi with | none => true | some b => decide (k < b))

/-- Strict BST order within open bounds. -/
def esABBAcotado (lo hi : Option Rat) : Arbol → Bool
  | .nil => true
  | .nodo _ d _ _ l r =>
    dentro lo hi d.temperatura_media &&
    esABBAcotado lo (some d.temperatura_media) l &&
    esABBAcotado (some d.temperatura_media) hi r

/-- Strict BST order: every node's left subtree holds strictly smaller
keys and its right subtree strictly larger ones. -/
def esABB (t : Arbol) : Bool := esABBAcotado none none t

/-- Does the root's stored `padre` field equal the given id? (`nil` has
no field to check.) -/
def padreEs (q : Option Nat) : Arbol → Bool
  | .nil => true
  | .nodo _ _ _ p _ _ => p == q

/-- Every child's stored `padre` field names its structural parent. -/
def hijosOk : Arbol → Bool
  | .nil => true
  | .nodo i _ _ _ l r =>
    padreEs (some i) l && padreEs (some i) r && hijosOk l && hijosOk r

/-- Parent back-references are globally consistent: the root has none and
every child points back at its parent. -/
def padresOk (t : Arbol) : Bool := padreEs none t && hijosOk t

/-- `s` occurs as a subtree of `t` (the node occurrences of `t`). -/
inductive Subarbol : Arbol → Arbol → Prop where
  | refl (t : Arbol) : Subarbol t t
  | izq {s l r : Arbol} (i : Nat) (d : Registro) (h : Nat) (p : Option Nat) :
      Subarbol s l → Subarbol s (.nodo i d h p l r)
  | der {s l r : Arbol} (i : Nat) (d : Registro) (h : Nat) (p : Option Nat) :
      Subarbol s r → Subarbol s (.nodo i d h p l r)

/-- The nodes visited by the comparison descent of the search for `k`
(ignoring the tolerance early exit). -/
def caminoBusqueda (t : Arbol) (k : Rat) : List Arbol :=
  match t with
  | .nil => []
  | .nodo i d h p l r =>
    Arbol.nodo i d h p l r ::
      (if k < d.temperatura_media then caminoBusqueda l k else caminoBusqueda r k)

/-- The property claimed for parent references: the root's parent is
absent, and every node whose `padre` field holds `pi` has a unique parent
node with id `pi`, of which exactly one child slot is that node. -/
def ReclamoPadres (t : Arbol) : Prop :=
  Arbol.padreDe t = none ∧
  ∀ s, Subarbol s t → ∀ pi, Arbol.padreDe s = some pi →
    ∃ p, Subarbol p t ∧ p ≠ Arbol.nil ∧ Arbol.idDe p = pi ∧
      ((Arbol.izquierdoDe p = s ∧ ¬ Arbol.derechoDe p = s) ∨
       (¬ Arbol.izquierdoDe p = s ∧ Arbol.derechoDe p = s)) ∧
      ∀ p', Subarbol p' t → p' ≠ Arbol.nil → Arbol.idDe p' = pi → p' = p

/-! ### Helper lemmas -/

theorem obtener_altura_setPadre (q : Option Nat) (t : Arbol) :
    obtener_altura (setPadre q t) = obtener_altura t := by
  cases t <;> rfl

/-! ### C1: AVL balance after every operation -/

/-- C1.  The claim fails on the code: from the empty index, the insertions
`(A,20), (B,10), (C,10)` leave the root with balance factor 2.  The
duplicate key 10 is perturbed to 10.001 and placed to the right of the
node keyed 10, but the unwinding frame at the root compares the
*unperturbed* key 10 with the left child's key 10, so none of the four
rotation cases fires. -/
theorem duplicados_rompen_balance :
    obtener_factor_balance
      (ejecutar [.ins "A" "a" 20, .ins "B" "b" 10, .ins "C" "c" 10]).raiz = 2 := by
  with_unfolding_all decide

/-! ### C2: deletion of a node with one child -/

/-- C2.  The claim fails on the code: from the empty index, after
`(A,20), (B,10), (C,30), (D,5)` the node keyed 10 has exactly one child
(keyed 5).  `eliminar 10` copies the child's fields into the node but
never removes the child's original slot: the tree keeps all 4 nodes and
now holds the key 5 twice. -/
theorem eliminar_un_hijo_no_elimina :
    contar (ejecutar [.ins "A" "a" 20, .ins "B" "b" 10, .ins "C" "c" 30,
      .ins "D" "d" 5, .del 10]).raiz = 4 ∧
    (clavesL (ejecutar [.ins "A" "a" 20, .ins "B" "b" 10, .ins "C" "c" 30,
      .ins "D" "d" 5, .del 10]).raiz).count 5 = 2 := by
  constructor
  · with_unfolding_all decide
  · with_unfolding_all decide

/-! ### C3: the auxiliary list mirrors the tree -/

/-- C3.  The claim fails on the code: from the empty index, insert
`(A,20)` and call `eliminar 20.05`.  The tolerance search matches the
root (distance 0.05 < 0.1) and removes it from `nodos_almacenados`, but
`_eliminar_recursivo` descends with the *argument* key 20.05, matches
nothing exactly, and removes no tree node: the call reports success and
leaves 1 reachable node against an empty auxiliary list. -/
theorem lista_desincronizada_tras_eliminar :
    (eliminar (ejecutar [.ins "A" "a" 20]) (401/20)).1 = true ∧
    (ejecutar [.ins "A" "a" 20, .del (401/20)]).nodos_almacenados.length = 0 ∧
    contar (ejecutar [.ins "A" "a" 20, .del (401/20)]).raiz = 1 := by
  refine ⟨?_, ?_, ?_⟩
  · with_unfolding_all decide
  · with_unfolding_all decide
  · with_unfolding_all decide

/-! ### C4: strict BST order after insertions -/

theorem c4_abb_falla :
    esABB (ejecutar [.ins "A" "a" (10001/1000), .ins "B" "b" 10,
      .ins "C" "c" 10]).raiz = false := by
  with_unfolding_all decide

theorem c4_clave_raiz_no_menor :
    ¬ Arbol.temperatura_mediaDe
        (ejecutar [.ins "A" "a" (10001/1000), .ins "B" "b" 10,
          .ins "C" "c" 10]).raiz <
      Arbol.temperatura_mediaDe
        (Arbol.derechoDe (Arbol.izquierdoDe
          (ejecutar [.ins "A" "a" (10001/1000), .ins "B" "b" 10,
            .ins "C" "c" 10]).raiz)) := by
  with_unfolding_all decide

theorem c4_clave_raiz_no_mayor :
    ¬ Arbol.temperatura_mediaDe
        (Arbol.derechoDe (Arbol.izquierdoDe
          (ejecutar [.ins "A" "a" (10001/1000), .ins "B" "b" 10,
            .ins "C" "c" 10]).raiz)) <
      Arbol.temperatura_mediaDe
        (ejecutar [.ins "A" "a" (10001/1000), .ins "B" "b" 10,
          .ins "C" "c" 10]).raiz := by
  with_unfolding_all decide

/-- C4.  The claim fails on the code: from the empty index, the
insertions `(A,10.001), (B,10), (C,10)` perturb the duplicate key 10 to
`10 + 0.001 = 10.001` and place it to the right of the node keyed 10 —
inside the *left* subtree of the root keyed 10.001.  The resulting tree
violates strict BST order, and the root and the node at position
left-then-right hold literally equal keys (stated here as neither being
smaller than the other). -/
theorem duplicados_rompen_abb :
    esABB (ejecutar [.ins "A" "a" (10001/1000), .ins "B" "b" 10,
      .ins "C" "c" 10]).raiz = false ∧
    ¬ Arbol.temperatura_mediaDe
        (ejecutar [.ins "A" "a" (10001/1000), .ins "B" "b" 10,
          .ins "C" "c" 10]).raiz <
      Arbol.temperatura_mediaDe
        (Arbol.derechoDe (Arbol.izquierdoDe
          (ejecutar [.ins "A" "a" (10001/1000), .ins "B" "b" 10,
            .ins "C" "c" 10]).raiz)) ∧
    ¬ Arbol.temperatura_mediaDe
        (Arbol.derechoDe (Arbol.izquierdoDe
          (ejecutar [.ins "A" "a" (10001/1000), .ins "B" "b" 10,
            .ins "C" "c" 10]).raiz)) <
      Arbol.temperatura_mediaDe
        (ejecutar [.ins "A" "a" (10001/1000), .ins "B" "b" 10,
          .ins "C" "c" 10]).raiz :=
  ⟨c4_abb_falla, c4_clave_raiz_no_menor, c4_clave_raiz_no_mayor⟩

/-! ### C6: the rotation contracts -/

/-- C6.  Contract of the rotations, read off `rotar_derecha` /
`rotar_izquierda`.  For a right rotation at `y` with left child `x` and
`T2 = x.derecho`: `x` takes `y`'s structural position (it is returned
with `y`'s former parent reference `yp`), `y` becomes `x`'s right child
(with parent reference `x`), `T2` becomes `y`'s left child (with parent
reference `y` when present), and the stored heights are recomputed for
`y` first and then for `x` (whose new height uses `y`'s new height).
The left rotation is the mirror image. -/
theorem contrato_rotaciones (yi xi : Nat) (yd xd : Registro) (yh xh : Nat)
    (yp xp : Option Nat) (xl xr yl yr : Arbol) :
    rotar_derecha (.nodo yi yd yh yp (.nodo xi xd xh xp xl xr) yr) =
      .nodo xi xd
        (1 + max (obtener_altura xl)
          (1 + max (obtener_altura xr) (obtener_altura yr))) yp xl
        (.nodo yi yd (1 + max (obtener_altura xr) (obtener_altura yr))
          (some xi) (setPadre (some yi) xr) yr) ∧
    rotar_izquierda (.nodo xi xd xh xp xl (.nodo yi yd yh yp yl yr)) =
      .nodo yi yd
        (1 + max (1 + max (obtener_altura xl) (obtener_altura yl))
          (obtener_altura yr)) xp
        (.nodo xi xd (1 + max (obtener_altura xl) (obtener_altura yl))
          (some yi) xl (setPadre (some xi) yl)) yr := by
  constructor
  · cases xr <;> simp [rotar_derecha, actualizar_altura, setPadre, obtener_altura]
  · cases yl <;> simp [rotar_izquierda, actualizar_altura, setPadre, obtener_altura]

/-! ### C7: deleting an absent key changes nothing -/

/-- C7.  When the tolerance search finds no node, `eliminar` reports
`False` and returns with the whole state (tree and auxiliary list)
untouched. -/
theorem eliminar_ausente_sin_cambios (s : ArbolAVL) (k : Rat)
    (h : buscarRec s.raiz k = none) : eliminar s k = (false, s) := by
  unfold eliminar
  rw [h]

/-- Witness for `eliminar_ausente_sin_cambios` at a concrete state: the
index holding only `(A,20)` and the key 50. -/
theorem eliminar_ausente_sin_cambios_testigo :
    eliminar (ejecutar [.ins "A" "a" 20]) 50 = (false, ejecutar [.ins "A" "a" 20]) :=
  eliminar_ausente_sin_cambios (ejecutar [.ins "A" "a" 20]) 50 (by with_unfolding_all decide)

/-! ### C10: the search returns the first tolerance match on the descent -/

theorem c10_camino (t : Arbol) (k : Rat) :
    buscarRec t k =
      (caminoBusqueda t k).find?
        (fun n => decide (|Arbol.temperatura_mediaDe n - k| < 1/10)) := by
  induction t with
  | nil => rfl
  | nodo i d h p l r ihl ihr =>
    by_cases hq : |d.temperatura_media - k| < 1/10
    · rw [caminoBusqueda, List.find?_cons_of_pos _
        (by simpa [Arbol.temperatura_mediaDe] using hq)]
      simp only [buscarRec]
      rw [if_pos hq]
    · rw [caminoBusqueda, List.find?_cons_of_neg _
        (by simpa [Arbol.temperatura_mediaDe] using hq)]
      simp only [buscarRec]
      rw [if_neg hq]
      by_cases hk : k < d.temperatura_media
      · rw [if_pos hk, if_pos hk]
        exact ihl
      · rw [if_neg hk, if_neg hk]
        exact ihr

theorem c10_sombra_exacta_presente :
    ¬ Arbol.temperatura_mediaDe
        (Arbol.derechoDe (ejecutar [.ins "A" "a" 20, .ins "B" "b" (401/20)]).raiz) <
      401/20 ∧
    ¬ (401/20 : Rat) <
      Arbol.temperatura_mediaDe
        (Arbol.derechoDe (ejecutar [.ins "A" "a" 20, .ins "B" "b" (401/20)]).raiz) :=
  ⟨by with_unfolding_all decide, by with_unfolding_all decide⟩

theorem c10_sombra_resultado :
    (buscarRec (ejecutar [.ins "A" "a" 20, .ins "B" "b" (401/20)]).raiz
        (401/20)).map Arbol.temperatura_mediaDe = some 20 ∧
    (20 : Rat) < 401/20 :=
  ⟨by with_unfolding_all decide, by with_unfolding_all decide⟩

/-- C10.  `buscar` returns the first node of the comparison descent whose
key lies within the tolerance `0.1`; consequently, in the tree built by
inserting `(A,20)` then `(B,20.05)`, the right child of the root holds
the key `20.05` exactly, yet searching 20.05 returns the root, whose key
is 20 — an exact match shadowed by an approximate one on the descent. -/
theorem buscar_primero_en_camino :
    (∀ (t : Arbol) (k : Rat),
      buscarRec t k =
        (caminoBusqueda t k).find?
          (fun n => decide (|Arbol.temperatura_mediaDe n - k| < 1/10))) ∧
    (¬ Arbol.temperatura_mediaDe
        (Arbol.derechoDe (ejecutar [.ins "A" "a" 20, .ins "B" "b" (401/20)]).raiz) <
      401/20 ∧
     ¬ (401/20 : Rat) <
      Arbol.temperatura_mediaDe
        (Arbol.derechoDe (ejecutar [.ins "A" "a" 20, .ins "B" "b" (401/20)]).raiz)) ∧
    (buscarRec (ejecutar [.ins "A" "a" 20, .ins "B" "b" (401/20)]).raiz
        (401/20)).map Arbol.temperatura_mediaDe = some 20 ∧
    (20 : Rat) < 401/20 :=
  ⟨c10_camino, c10_sombra_exacta_presente, c10_sombra_resultado⟩

/-! ### C9: `buscar_mayor_promedio_global` -/

theorem insDesc_perm (x : Registro) (ys : List Registro) :
    (insDesc x ys).Perm (x :: ys) := by
  induction ys with
  | nil => simp [insDesc]
  | cons y ys ih =>
    rw [insDesc]
    split
    · exact (ih.cons y).trans (List.Perm.swap x y ys)
    · exact List.Perm.refl _

theorem insDesc_pairwise (x : Registro) (ys : List Registro)
    (h : ys.Pairwise (fun a b => b.temperatura_media ≤ a.temperatura_media)) :
    (insDesc x ys).Pairwise
      (fun a b => b.temperatura_media ≤ a.temperatura_media) := by
  induction ys with
  | nil => simp [insDesc]
  | cons y ys ih =>
    rw [List.pairwise_cons] at h
    obtain ⟨hy, hys⟩ := h
    rw [insDesc]
    split
    case isTrue hlt =>
      refine List.Pairwise.cons ?_ (ih hys)
      intro b hb
      rcases List.mem_cons.mp ((insDesc_perm x ys).mem_iff.mp hb) with hb | hb
      · exact hb ▸ le_of_lt hlt
      · exact hy b hb
    case isFalse hge =>
      refine List.Pairwise.cons ?_ (List.Pairwise.cons hy hys)
      intro b hb
      rcases List.mem_cons.mp hb with hb | hb
      · exact hb ▸ le_of_not_lt hge
      · exact le_trans (hy b hb) (le_of_not_lt hge)

theorem insDesc_filter (x : Registro) (ys : List Registro) (q : Rat) :
    (insDesc x ys).filter (fun n => decide (n.temperatura_media = q)) =
      if x.temperatura_media = q then
        x :: ys.filter (fun n => decide (n.temperatura_media = q))
      else ys.filter (fun n => decide (n.temperatura_media = q)) := by
  induction ys with
  | nil => by_cases hx : x.temperatura_media = q <;> simp [insDesc, hx]
  | cons y ys ih =>
    rw [insDesc]
    split
    case isTrue hlt =>
      by_cases hx : x.temperatura_media = q
      · have hy : ¬ y.temperatura_media = q := fun hyq => by
          rw [hx] at hlt
          exact absurd hyq.symm (ne_of_lt hlt)
        simp [List.filter_cons, hy, ih, hx]
      · by_cases hy : y.temperatura_media = q <;>
          simp [List.filter_cons, hy, ih, hx]
    case isFalse hge =>
      by_cases hx : x.temperatura_media = q <;>
        by_cases hy : y.temperatura_media = q <;>
          simp [List.filter_cons, hx, hy]

theorem ordenarDescEstable_perm (l : List Registro) :
    (ordenarDescEstable l).Perm l := by
  induction l with
  | nil => exact List.Perm.refl _
  | cons x xs ih =>
    rw [ordenarDescEstable]
    exact (insDesc_perm x (ordenarDescEstable xs)).trans (ih.cons x)

theorem ordenarDescEstable_pairwise (l : List Registro) :
    (ordenarDescEstable l).Pairwise
      (fun a b => b.temperatura_media ≤ a.temperatura_media) := by
  induction l with
  | nil => simp [ordenarDescEstable]
  | cons x xs ih =>
    rw [ordenarDescEstable]
    exact insDesc_pairwise x _ ih

theorem ordenarDescEstable_filter (l : List Registro) (q : Rat) :
    (ordenarDescEstable l).filter (fun n => decide (n.temperatura_media = q)) =
      l.filter (fun n => decide (n.temperatura_media = q)) := by
  induction l with
  | nil => rfl
  | cons x xs ih =>
    rw [ordenarDescEstable, insDesc_filter]
    by_cases hx : x.temperatura_media = q <;> simp [List.filter_cons, hx, ih]

/-- C9.  `buscar_mayor_promedio_global` returns exactly the records of
the auxiliary list whose key is at least the threshold (a permutation of
the linear-scan filter), sorted descending by key, and records of equal
key keep their original scan order (the restriction of the output to any
fixed key equals the restriction of the filtered input). -/
theorem buscar_mayor_promedio_global_correcto (l : List Registro) (limite : Rat) :
    (buscar_mayor_promedio_global l limite).Perm
      (l.filter (fun n => decide (limite ≤ n.temperatura_media))) ∧
    (buscar_mayor_promedio_global l limite).Pairwise
      (fun a b => b.temperatura_media ≤ a.temperatura_media) ∧
    ∀ q : Rat,
      (buscar_mayor_promedio_global l limite).filter
          (fun n => decide (n.temperatura_media = q)) =
        (l.filter (fun n => decide (limite ≤ n.temperatura_media))).filter
          (fun n => decide (n.temperatura_media = q)) :=
  ⟨ordenarDescEstable_perm _, ordenarDescEstable_pairwise _,
    fun q => ordenarDescEstable_filter _ q⟩

/-! ### C8: preservation lemmas for the amended round-trip -/

theorem datosL_setPadre (q : Option Nat) (t : Arbol) :
    datosL (setPadre q t) = datosL t := by
  cases t <;> rfl

theorem datosL_actualizar (t : Arbol) :
    datosL (actualizar_altura t) = datosL t := by
  cases t <;> rfl

theorem datosL_rotar_derecha (t : Arbol) :
    datosL (rotar_derecha t) = datosL t := by
  match t with
  | .nil => rfl
  | .nodo yi yd yh yp .nil yr => rfl
  | .nodo yi yd yh yp (.nodo xi xd xh xp xl xr) yr =>
    simp [rotar_derecha, datosL, datosL_actualizar, datosL_setPadre]

theorem datosL_rotar_izquierda (t : Arbol) :
    datosL (rotar_izquierda t) = datosL t := by
  match t with
  | .nil => rfl
  | .nodo xi xd xh xp xl .nil => rfl
  | .nodo xi xd xh xp xl (.nodo yi yd yh yp yl yr) =>
    simp [rotar_izquierda, datosL, datosL_actualizar, datosL_setPadre]

theorem datosL_insertarFix (t : Arbol) (k : Rat) :
    datosL (insertarFix t k) = datosL t := by
  match t with
  | .nil => rfl
  | .nodo i d h p l r =>
    simp only [insertarFix]
    split_ifs <;>
      simp [datosL, datosL_rotar_derecha, datosL_rotar_izquierda]

theorem datosL_eliminarFix (t : Arbol) :
    datosL (eliminarFix t) = datosL t := by
  match t with
  | .nil => rfl
  | .nodo i d h p l r =>
    simp only [eliminarFix]
    split_ifs <;>
      simp [datosL, datosL_rotar_derecha, datosL_rotar_izquierda]

theorem dentro_iff (lo hi : Option Rat) (k : Rat) :
    dentro lo hi k = true ↔ (∀ a ∈ lo, a < k) ∧ ∀ b ∈ hi, k < b := by
  cases lo <;> cases hi <;> simp [dentro]

theorem esABBAcotado_setPadre (lo hi : Option Rat) (q : Option Nat) (t : Arbol) :
    esABBAcotado lo hi (setPadre q t) = esABBAcotado lo hi t := by
  cases t <;> rfl

theorem esABBAcotado_actualizar (lo hi : Option Rat) (t : Arbol) :
    esABBAcotado lo hi (actualizar_altura t) = esABBAcotado lo hi t := by
  cases t <;> rfl

theorem esABBAcotado_claves (lo hi : Option Rat) (t : Arbol)
    (h : esABBAcotado lo hi t = true) :
    ∀ q ∈ clavesL t, dentro lo hi q = true := by
  induction t generalizing lo hi with
  | nil => simp [clavesL, datosL]
  | nodo i d ht p l r ihl ihr =>
    simp only [esABBAcotado, Bool.and_eq_true] at h
    obtain ⟨⟨hd, hl⟩, hr⟩ := h
    intro q hq
    simp only [clavesL, datosL, List.map_append, List.map_cons, List.mem_append,
      List.mem_cons] at hq
    rcases hq with hq | hq | hq
    · have := ihl lo (some d.temperatura_media) hl q (by simpa [clavesL] using hq)
      rw [dentro_iff] at this ⊢
      rw [dentro_iff] at hd
      exact ⟨this.1, fun b hb => lt_trans (this.2 d.temperatura_media rfl) (hd.2 b hb)⟩
    · subst hq
      exact hd
    · have := ihr (some d.temperatura_media) hi hr q (by simpa [clavesL] using hq)
      rw [dentro_iff] at this ⊢
      rw [dentro_iff] at hd
      exact ⟨fun a ha => lt_trans (hd.1 a ha) (this.1 d.temperatura_media rfl), this.2⟩

theorem esABB_rotar_derecha (lo hi : Option Rat) (t : Arbol)
    (h : esABBAcotado lo hi t = true) :
    esABBAcotado lo hi (rotar_derecha t) = true := by
  match t with
  | .nil => exact h
  | .nodo yi yd yh yp .nil yr => exact h
  | .nodo yi yd yh yp (.nodo xi xd xh xp xl xr) yr =>
    simp only [esABBAcotado, Bool.and_eq_true] at h
    obtain ⟨⟨hy, ⟨⟨hx, hxl⟩, hxr⟩⟩, hyr⟩ := h
    simp only [rotar_derecha, esABBAcotado_actualizar, esABBAcotado,
      esABBAcotado_setPadre, Bool.and_eq_true]
    rw [dentro_iff] at hy hx
    refine ⟨⟨?_, hxl⟩, ⟨?_, hxr⟩, hyr⟩
    · rw [dentro_iff]
      exact ⟨hx.1, fun b hb => lt_trans (hx.2 _ rfl) (hy.2 b hb)⟩
    · rw [dentro_iff]
      exact ⟨fun a ha => by cases ha; exact hx.2 _ rfl, hy.2⟩

theorem esABB_rotar_izquierda (lo hi : Option Rat) (t : Arbol)
    (h : esABBAcotado lo hi t = true) :
    esABBAcotado lo hi (rotar_izquierda t) = true := by
  match t with
  | .nil => exact h
  | .nodo xi xd xh xp xl .nil => exact h
  | .nodo xi xd xh xp xl (.nodo yi yd yh yp yl yr) =>
    simp only [esABBAcotado, Bool.and_eq_true] at h
    obtain ⟨⟨hx, hxl⟩, ⟨hy, hyl⟩, hyr⟩ := h
    simp only [rotar_izquierda, esABBAcotado_actualizar, esABBAcotado,
      esABBAcotado_setPadre, Bool.and_eq_true]
    rw [dentro_iff] at hx hy
    refine ⟨⟨?_, ⟨?_, hxl⟩, hyl⟩, hyr⟩
    · rw [dentro_iff]
      exact ⟨fun a ha => lt_trans (hx.1 a ha) (hy.1 _ rfl), hy.2⟩
    · rw [dentro_iff]
      exact ⟨hx.1, fun b hb => by cases hb; exact hy.1 _ rfl⟩

theorem esABB_insertarFix (lo hi : Option Rat) (t : Arbol) (k : Rat)
    (h : esABBAcotado lo hi t = true) :
    esABBAcotado lo hi (insertarFix t k) = true := by
  match t with
  | .nil => exact h
  | .nodo i d ht p l r =>
    have hbase : ∀ h2 : Nat, esABBAcotado lo hi (.nodo i d h2 p l r) = true := by
      intro h2
      simpa [esABBAcotado] using h
    simp only [insertarFix]
    split_ifs
    · exact esABB_rotar_derecha _ _ _ (hbase _)
    · exact esABB_rotar_izquierda _ _ _ (hbase _)
    · refine esABB_rotar_derecha _ _ _ ?_
      have := hbase (1 + max (obtener_altura l) (obtener_altura r))
      simp only [esABBAcotado, Bool.and_eq_true] at this ⊢
      exact ⟨⟨this.1.1, esABB_rotar_izquierda _ _ _ this.1.2⟩, this.2⟩
    · refine esABB_rotar_izquierda _ _ _ ?_
      have := hbase (1 + max (obtener_altura l) (obtener_altura r))
      simp only [esABBAcotado, Bool.and_eq_true] at this ⊢
      exact ⟨this.1, esABB_rotar_derecha _ _ _ this.2⟩
    · exact hbase _

theorem clavesL_nodo (i : Nat) (d : Registro) (ht : Nat) (p : Option Nat)
    (l r : Arbol) :
    clavesL (.nodo i d ht p l r) =
      clavesL l ++ d.temperatura_media :: clavesL r := by
  simp [clavesL, datosL]

theorem insertarRec_abb (t : Arbol) (lo hi : Option Rat) (a b : String)
    (k : Rat) (f : Nat)
    (h : esABBAcotado lo hi t = true) (hk : dentro lo hi k = true)
    (hne : ∀ q ∈ clavesL t, q ≠ k) :
    esABBAcotado lo hi (insertarRec t a b k f) = true ∧
    (datosL (insertarRec t a b k f)).Perm (⟨a, b, k⟩ :: datosL t) := by
  induction t generalizing lo hi with
  | nil =>
    refine ⟨?_, ?_⟩
    · simp [insertarRec, esABBAcotado, hk]
    · simp [insertarRec, datosL]
  | nodo i d ht p l r ihl ihr =>
    simp only [esABBAcotado, Bool.and_eq_true] at h
    obtain ⟨⟨hd, hl⟩, hr⟩ := h
    have hdk : d.temperatura_media ≠ k := by
      refine hne d.temperatura_media ?_
      rw [clavesL_nodo]
      simp
    by_cases h1 : k < d.temperatura_media
    · have hkl : dentro lo (some d.temperatura_media) k = true := by
        rw [dentro_iff] at hk ⊢
        exact ⟨hk.1, fun c hc => by cases hc; exact h1⟩
      have hnel : ∀ q ∈ clavesL l, q ≠ k := by
        intro q hq
        refine hne q ?_
        rw [clavesL_nodo]
        exact List.mem_append_left _ hq
      obtain ⟨habb, hperm⟩ := ihl lo (some d.temperatura_media) hl hkl hnel
      rw [insertarRec, if_pos h1]
      refine ⟨?_, ?_⟩
      · apply esABB_insertarFix
        simp only [esABBAcotado, esABBAcotado_setPadre, Bool.and_eq_true]
        exact ⟨⟨hd, habb⟩, hr⟩
      · rw [datosL_insertarFix]
        simp only [datosL, datosL_setPadre]
        exact hperm.append_right _
    · by_cases h2 : d.temperatura_media < k
      · have hkr : dentro (some d.temperatura_media) hi k = true := by
          rw [dentro_iff] at hk ⊢
          exact ⟨fun c hc => by cases hc; exact h2, hk.2⟩
        have hner : ∀ q ∈ clavesL r, q ≠ k := by
          intro q hq
          refine hne q ?_
          rw [clavesL_nodo]
          exact List.mem_append_right _ (List.mem_cons_of_mem _ hq)
        obtain ⟨habb, hperm⟩ := ihr (some d.temperatura_media) hi hr hkr hner
        rw [insertarRec, if_neg h1, if_pos h2]
        refine ⟨?_, ?_⟩
        · apply esABB_insertarFix
          simp only [esABBAcotado, esABBAcotado_setPadre, Bool.and_eq_true]
          exact ⟨⟨hd, hl⟩, habb⟩
        · rw [datosL_insertarFix]
          simp only [datosL, datosL_setPadre]
          refine List.Perm.trans (List.Perm.append_left _ (hperm.cons d)) ?_
          refine List.Perm.trans
            (List.Perm.append_left _ (List.Perm.swap ⟨a, b, k⟩ d (datosL r))) ?_
          exact List.perm_middle
      · exact absurd (le_antisymm (le_of_not_lt h2) (le_of_not_lt h1)) (Ne.symm hdk)

theorem buscar_encuentra (t : Arbol) (lo hi : Option Rat) (k : Rat)
    (h : esABBAcotado lo hi t = true)
    (hmem : k ∈ clavesL t)
    (hfar : ∀ q ∈ clavesL t, q = k ∨ 1/10 ≤ |q - k|) :
    ∃ n, buscarRec t k = some n ∧ Arbol.datosDe n ∈ datosL t ∧
      (Arbol.datosDe n).temperatura_media = k := by
  induction t generalizing lo hi with
  | nil => simp [clavesL, datosL] at hmem
  | nodo i d ht p l r ihl ihr =>
    simp only [esABBAcotado, Bool.and_eq_true] at h
    obtain ⟨⟨hd, hl⟩, hr⟩ := h
    by_cases hq : |d.temperatura_media - k| < 1/10
    · have hdk : d.temperatura_media = k := by
        rcases hfar d.temperatura_media (by rw [clavesL_nodo]; simp) with h' | h'
        · exact h'
        · exact absurd hq (not_lt.mpr h')
      refine ⟨.nodo i d ht p l r, ?_, ?_, hdk⟩
      · rw [buscarRec, if_pos hq]
      · simp [datosL, Arbol.datosDe]
    · have hdk : d.temperatura_media ≠ k := fun e => by
        rw [e] at hq
        simp at hq
      rw [clavesL_nodo] at hmem
      rcases List.mem_append.mp hmem with hml | hmr
      · have h1 : k < d.temperatura_media := by
          have := esABBAcotado_claves lo (some d.temperatura_media) l hl k hml
          rw [dentro_iff] at this
          exact this.2 d.temperatura_media rfl
        obtain ⟨n, hn, hmemn, hkey⟩ := ihl lo (some d.temperatura_media) hl hml
          (fun q hq' => hfar q (by rw [clavesL_nodo]; exact List.mem_append_left _ hq'))
        refine ⟨n, ?_, ?_, hkey⟩
        · rw [buscarRec, if_neg hq, if_pos h1]
          exact hn
        · simp only [datosL, List.mem_append, List.mem_cons]
          exact Or.inl hmemn
      · rcases List.mem_cons.mp hmr with he | hmr'
        · exact absurd he.symm hdk
        · have h2 : d.temperatura_media < k := by
            have := esABBAcotado_claves (some d.temperatura_media) hi r hr k hmr'
            rw [dentro_iff] at this
            exact this.1 d.temperatura_media rfl
          obtain ⟨n, hn, hmemn, hkey⟩ := ihr (some d.temperatura_media) hi hr hmr'
            (fun q hq' => hfar q (by
              rw [clavesL_nodo]
              exact List.mem_append_right _ (List.mem_cons_of_mem _ hq')))
          refine ⟨n, ?_, ?_, hkey⟩
          · rw [buscarRec, if_neg hq, if_neg (not_lt.mpr (le_of_lt h2))]
            exact hn
          · simp only [datosL, List.mem_append, List.mem_cons]
            exact Or.inr (Or.inr hmemn)

theorem buscar_nada (t : Arbol) (k : Rat)
    (h : ∀ q ∈ clavesL t, ¬ |q - k| < 1/10) : buscarRec t k = none := by
  induction t with
  | nil => rfl
  | nodo i d ht p l r ihl ihr =>
    have hd : ¬ |d.temperatura_media - k| < 1/10 :=
      h d.temperatura_media (by rw [clavesL_nodo]; simp)
    rw [buscarRec, if_neg hd]
    split
    · exact ihl fun q hq =>
        h q (by rw [clavesL_nodo]; exact List.mem_append_left _ hq)
    · exact ihr fun q hq =>
        h q (by rw [clavesL_nodo]; exact List.mem_append_right _ (List.mem_cons_of_mem _ hq))

theorem clavesL_setPadre (q : Option Nat) (t : Arbol) :
    clavesL (setPadre q t) = clavesL t := by
  simp [clavesL, datosL_setPadre]

theorem clavesL_eliminarFix (t : Arbol) :
    clavesL (eliminarFix t) = clavesL t := by
  simp [clavesL, datosL_eliminarFix]

theorem datosDe_mem (t : Arbol) (h : t ≠ .nil) :
    Arbol.datosDe t ∈ datosL t := by
  cases t with
  | nil => exact absurd rfl h
  | nodo i d ht p l r =>
    simp [Arbol.datosDe, datosL]

theorem obtener_minimo_nodo (i : Nat) (d : Registro) (ht : Nat)
    (p : Option Nat) (r : Arbol) (li : Nat) (ld : Registro) (lh : Nat)
    (lp : Option Nat) (ll lr : Arbol) :
    obtener_minimo (.nodo i d ht p (.nodo li ld lh lp ll lr) r) =
      obtener_minimo (.nodo li ld lh lp ll lr) := rfl

theorem obtener_minimo_mem (t : Arbol) (h : t ≠ .nil) :
    Arbol.datosDe (obtener_minimo t) ∈ datosL t := by
  induction t with
  | nil => exact absurd rfl h
  | nodo i d ht p l r ihl ihr =>
    cases l with
    | nil => simp [obtener_minimo, datosL, Arbol.datosDe]
    | nodo li ld lh lp ll lr =>
      rw [obtener_minimo_nodo]
      have hm := ihl (by simp)
      simp only [datosL, List.mem_append, List.mem_cons] at hm ⊢
      tauto

theorem eliminarRec_datos_sub (t : Arbol) (k : Rat) :
    ∀ x ∈ datosL (eliminarRec t k), x ∈ datosL t := by
  induction t generalizing k with
  | nil => simp [eliminarRec]
  | nodo i d ht p l r ihl ihr =>
    intro x hx
    rw [eliminarRec] at hx
    by_cases h1 : k < d.temperatura_media
    · rw [if_pos h1, datosL_eliminarFix] at hx
      simp only [datosL, List.mem_append, List.mem_cons] at hx ⊢
      rcases hx with hx | hx | hx
      · exact Or.inl (ihl k x hx)
      · exact Or.inr (Or.inl hx)
      · exact Or.inr (Or.inr hx)
    · rw [if_neg h1] at hx
      by_cases h2 : d.temperatura_media < k
      · rw [if_pos h2, datosL_eliminarFix] at hx
        simp only [datosL, List.mem_append, List.mem_cons] at hx ⊢
        rcases hx with hx | hx | hx
        · exact Or.inl hx
        · exact Or.inr (Or.inl hx)
        · exact Or.inr (Or.inr (ihr k x hx))
      · rw [if_neg h2] at hx
        by_cases hc : l = .nil ∨ r = .nil
        · rw [if_pos hc] at hx
          by_cases htemp : (if l ≠ Arbol.nil then l else r) = Arbol.nil
          · rw [if_pos htemp] at hx
            simp [datosL] at hx
          · rw [if_neg htemp, datosL_eliminarFix] at hx
            simp only [datosL, datosL_setPadre, List.mem_append, List.mem_cons] at hx ⊢
            rcases hx with hx | hx | hx
            · exact Or.inl hx
            · subst hx
              by_cases hl : l = Arbol.nil
              · rw [if_neg (not_not_intro hl)] at htemp ⊢
                exact Or.inr (Or.inr (datosDe_mem r htemp))
              · rw [if_pos hl] at htemp ⊢
                exact Or.inl (datosDe_mem l htemp)
            · exact Or.inr (Or.inr hx)
        · rw [if_neg hc, datosL_eliminarFix] at hx
          have hrne : r ≠ Arbol.nil := by
            intro e
            exact hc (Or.inr e)
          simp only [datosL, List.mem_append, List.mem_cons] at hx ⊢
          rcases hx with hx | hx | hx
          · exact Or.inl hx
          · subst hx
            exact Or.inr (Or.inr (obtener_minimo_mem r hrne))
          · exact Or.inr (Or.inr (ihr _ x hx))

theorem eliminarRec_claves_sub (t : Arbol) (k : Rat) :
    ∀ q ∈ clavesL (eliminarRec t k), q ∈ clavesL t := by
  intro q hq
  simp only [clavesL, List.mem_map] at hq ⊢
  obtain ⟨x, hx, he⟩ := hq
  exact ⟨x, eliminarRec_datos_sub t k x hx, he⟩

theorem eliminarRec_sin_clave (t : Arbol) (lo hi : Option Rat) (k : Rat)
    (h : esABBAcotado lo hi t = true) :
    k ∉ clavesL (eliminarRec t k) := by
  induction t generalizing lo hi with
  | nil => simp [eliminarRec, clavesL, datosL]
  | nodo i d ht p l r ihl ihr =>
    simp only [esABBAcotado, Bool.and_eq_true] at h
    obtain ⟨⟨hd, hl⟩, hr⟩ := h
    have hrgt : ∀ q ∈ clavesL r, d.temperatura_media < q := by
      intro q hq
      have := esABBAcotado_claves (some d.temperatura_media) hi r hr q hq
      rw [dentro_iff] at this
      exact this.1 d.temperatura_media rfl
    have hllt : ∀ q ∈ clavesL l, q < d.temperatura_media := by
      intro q hq
      have := esABBAcotado_claves lo (some d.temperatura_media) l hl q hq
      rw [dentro_iff] at this
      exact this.2 d.temperatura_media rfl
    intro hk
    rw [eliminarRec] at hk
    by_cases h1 : k < d.temperatura_media
    · rw [if_pos h1, clavesL_eliminarFix, clavesL_nodo] at hk
      rcases List.mem_append.mp hk with hk | hk
      · exact ihl lo (some d.temperatura_media) hl hk
      · rcases List.mem_cons.mp hk with hk | hk
        · exact absurd hk.symm (ne_of_gt h1)
        · exact absurd h1 (not_lt.mpr (le_of_lt (hrgt k hk)))
    · rw [if_neg h1] at hk
      by_cases h2 : d.temperatura_media < k
      · rw [if_pos h2, clavesL_eliminarFix, clavesL_nodo] at hk
        rcases List.mem_append.mp hk with hk | hk
        · exact absurd (hllt k hk) (not_lt.mpr (le_of_lt h2))
        · rcases List.mem_cons.mp hk with hk | hk
          · exact absurd hk.symm (ne_of_lt h2)
          · exact ihr (some d.temperatura_media) hi hr hk
      · have hdk : d.temperatura_media = k :=
          le_antisymm (le_of_not_lt h1) (le_of_not_lt h2)
        rw [if_neg h2] at hk
        by_cases hc : l = .nil ∨ r = .nil
        · rw [if_pos hc] at hk
          by_cases htemp : (if l ≠ Arbol.nil then l else r) = Arbol.nil
          · rw [if_pos htemp] at hk
            simp [clavesL, datosL] at hk
          · rw [if_neg htemp, clavesL_eliminarFix, clavesL_nodo] at hk
            rcases List.mem_append.mp hk with hk | hk
            · rw [clavesL_setPadre] at hk
              exact absurd (hdk ▸ hllt k hk) (lt_irrefl k)
            · rcases List.mem_cons.mp hk with hk | hk
              · by_cases hlnil : l = Arbol.nil
                · rw [if_neg (not_not_intro hlnil)] at htemp hk
                  have : k ∈ clavesL r := by
                    rw [hk]
                    simp only [clavesL, List.mem_map]
                    exact ⟨Arbol.datosDe r, datosDe_mem r htemp, rfl⟩
                  exact absurd (hdk ▸ hrgt k this) (lt_irrefl k)
                · rw [if_pos hlnil] at htemp hk
                  have : k ∈ clavesL l := by
                    rw [hk]
                    simp only [clavesL, List.mem_map]
                    exact ⟨Arbol.datosDe l, datosDe_mem l htemp, rfl⟩
                  exact absurd (hdk ▸ hllt k this) (lt_irrefl k)
              · rw [clavesL_setPadre] at hk
                exact absurd (hdk ▸ hrgt k hk) (lt_irrefl k)
        · rw [if_neg hc] at hk
          simp only [clavesL_eliminarFix, clavesL_nodo] at hk
          have hrne : r ≠ Arbol.nil := fun e => hc (Or.inr e)
          rcases List.mem_append.mp hk with hk | hk
          · exact absurd (hdk ▸ hllt k hk) (lt_irrefl k)
          · rcases List.mem_cons.mp hk with hk | hk
            · have : k ∈ clavesL r := by
                rw [hk]
                simp only [clavesL, List.mem_map]
                exact ⟨Arbol.datosDe (obtener_minimo r), obtener_minimo_mem r hrne, rfl⟩
              exact absurd (hdk ▸ hrgt k this) (lt_irrefl k)
            · have : k ∈ clavesL r := eliminarRec_claves_sub r _ k hk
              exact absurd (hdk ▸ hrgt k this) (lt_irrefl k)

theorem c8_busqueda_devuelve_otro :
    (buscarRec (insertar (ejecutar [.ins "A" "a" 20]) "B" "b" (401/20)).2.raiz
        (401/20)).map (fun n => (Arbol.datosDe n).iso3) = some "A" := by
  with_unfolding_all decide

theorem c8_tras_borrar_no_ausente :
    buscarRec (eliminar (insertar (ejecutar [.ins "A" "a" 20]) "B" "b" (401/20)).2
        (401/20)).2.raiz (401/20) ≠ none := by
  with_unfolding_all decide

/-- C8, counterexample to the claim as stated.  From the reachable index
holding only `(A,20)`, insert the record `(B,b,20.05)` and search for
20.05: the search returns the record with code `A`, not the inserted code
`B` (the root keyed 20 lies within the 0.1 tolerance and shadows the new
node); and after deleting 20.05 the search still returns a record rather
than an absent result. -/
theorem ida_vuelta_contraejemplo :
    (buscarRec (insertar (ejecutar [.ins "A" "a" 20]) "B" "b" (401/20)).2.raiz
        (401/20)).map (fun n => (Arbol.datosDe n).iso3) = some "A" ∧
    "A" ≠ "B" ∧
    buscarRec (eliminar (insertar (ejecutar [.ins "A" "a" 20]) "B" "b" (401/20)).2
        (401/20)).2.raiz (401/20) ≠ none :=
  ⟨c8_busqueda_devuelve_otro, by decide, c8_tras_borrar_no_ausente⟩

/-- C8, amended.  For every index state whose tree satisfies strict BST
order and stores no key within the 0.1 search tolerance of the record's
key, inserting the record and immediately searching for its key returns
a record carrying the inserted code; and after then deleting that key,
searching for it again returns an absent result. -/
theorem ida_vuelta_enmendada (s : ArbolAVL) (a b : String) (k : Rat)
    (hbst : esABB s.raiz = true)
    (hfar : ∀ q ∈ clavesL s.raiz, 1/10 ≤ |q - k|) :
    (∃ n, buscarRec (insertar s a b k).2.raiz k = some n ∧
      (Arbol.datosDe n).iso3 = a) ∧
    buscarRec (eliminar (insertar s a b k).2 k).2.raiz k = none := by
  have hne : ∀ q ∈ clavesL s.raiz, q ≠ k := by
    intro q hq e
    have h10 := hfar q hq
    rw [e, sub_self, abs_zero] at h10
    norm_num at h10
  obtain ⟨habb, hperm⟩ := insertarRec_abb s.raiz none none a b k s.nextId hbst
    (by simp [dentro]) hne
  have hclaves' : ∀ q ∈ clavesL (insertarRec s.raiz a b k s.nextId),
      q = k ∨ q ∈ clavesL s.raiz := by
    intro q hq
    simp only [clavesL, List.mem_map] at hq
    obtain ⟨x, hx, he⟩ := hq
    rcases List.mem_cons.mp (hperm.mem_iff.mp hx) with hx0 | hxs
    · left
      rw [← he, hx0]
    · right
      simp only [clavesL, List.mem_map]
      exact ⟨x, hxs, he⟩
  have hkmem : k ∈ clavesL (insertarRec s.raiz a b k s.nextId) := by
    simp only [clavesL, List.mem_map]
    exact ⟨⟨a, b, k⟩, hperm.mem_iff.mpr (List.mem_cons_self _ _), rfl⟩
  have hfar' : ∀ q ∈ clavesL (insertarRec s.raiz a b k s.nextId),
      q = k ∨ 1/10 ≤ |q - k| := by
    intro q hq
    rcases hclaves' q hq with h' | h'
    · exact Or.inl h'
    · exact Or.inr (hfar q h')
  obtain ⟨n, hbusq, hmemn, hkey⟩ :=
    buscar_encuentra (insertarRec s.raiz a b k s.nextId) none none k habb hkmem hfar'
  have hiso : Arbol.datosDe n = ⟨a, b, k⟩ := by
    rcases List.mem_cons.mp (hperm.mem_iff.mp hmemn) with h' | h'
    · exact h'
    · exfalso
      refine hne (Arbol.datosDe n).temperatura_media ?_ hkey
      simp only [clavesL, List.mem_map]
      exact ⟨Arbol.datosDe n, h', rfl⟩
  refine ⟨⟨n, hbusq, by rw [hiso]⟩, ?_⟩
  have hdel : (eliminar (insertar s a b k).2 k).2.raiz =
      eliminarRec (insertarRec s.raiz a b k s.nextId) k := by
    unfold eliminar insertar
    rw [hbusq]
  rw [hdel]
  refine buscar_nada _ k ?_
  intro q hq
  have hq' : q ∈ clavesL (insertarRec s.raiz a b k s.nextId) :=
    eliminarRec_claves_sub _ k q hq
  have hqk : q ≠ k := by
    intro e
    exact eliminarRec_sin_clave _ none none k habb (e ▸ hq)
  rcases hclaves' q hq' with h' | h'
  · exact absurd h' hqk
  · exact not_lt.mpr (hfar q h')

/-- Witness for `ida_vuelta_enmendada`: the index holding only `(A,20)`
(a strict BST, every key at distance at least 0.1 from 30) and the
record `(B,b,30)`. -/
theorem ida_vuelta_enmendada_testigo :
    (∃ n, buscarRec (insertar (ejecutar [.ins "A" "a" 20]) "B" "b" 30).2.raiz 30 =
        some n ∧ (Arbol.datosDe n).iso3 = "B") ∧
    buscarRec (eliminar (insertar (ejecutar [.ins "A" "a" 20]) "B" "b" 30).2 30).2.raiz
      30 = none :=
  ida_vuelta_enmendada (ejecutar [.ins "A" "a" 20]) "B" "b" 30
    (by with_unfolding_all decide) (by with_unfolding_all decide)

/-! ### C5: parent back-references -/

theorem padreEs_setPadre (q : Option Nat) (t : Arbol) :
    padreEs q (setPadre q t) = true := by
  cases t <;> simp [setPadre, padreEs]

theorem hijosOk_setPadre (q : Option Nat) (t : Arbol) :
    hijosOk (setPadre q t) = hijosOk t := by
  cases t <;> rfl

theorem padreEs_actualizar (q : Option Nat) (t : Arbol) :
    padreEs q (actualizar_altura t) = padreEs q t := by
  cases t <;> rfl

theorem hijosOk_actualizar (t : Arbol) :
    hijosOk (actualizar_altura t) = hijosOk t := by
  cases t <;> rfl

theorem padreEs_rotar_derecha (q : Option Nat) (t : Arbol)
    (h : padreEs q t = true) : padreEs q (rotar_derecha t) = true := by
  match t with
  | .nil => exact h
  | .nodo yi yd yh yp .nil yr => exact h
  | .nodo yi yd yh yp (.nodo xi xd xh xp xl xr) yr =>
    simp only [rotar_derecha]
    rw [padreEs_actualizar]
    simpa [padreEs] using h

theorem padreEs_rotar_izquierda (q : Option Nat) (t : Arbol)
    (h : padreEs q t = true) : padreEs q (rotar_izquierda t) = true := by
  match t with
  | .nil => exact h
  | .nodo xi xd xh xp xl .nil => exact h
  | .nodo xi xd xh xp xl (.nodo yi yd yh yp yl yr) =>
    simp only [rotar_izquierda]
    rw [padreEs_actualizar]
    simpa [padreEs] using h

theorem hijosOk_rotar_derecha (t : Arbol) (h : hijosOk t = true) :
    hijosOk (rotar_derecha t) = true := by
  match t with
  | .nil => exact h
  | .nodo yi yd yh yp .nil yr => exact h
  | .nodo yi yd yh yp (.nodo xi xd xh xp xl xr) yr =>
    simp only [hijosOk, Bool.and_eq_true] at h
    obtain ⟨⟨⟨hpx, hpyr⟩, ⟨⟨hpxl, hpxr⟩, hxl⟩, hxr⟩, hyr⟩ := h
    simp only [rotar_derecha, hijosOk_actualizar, hijosOk, padreEs_actualizar,
      hijosOk_setPadre, Bool.and_eq_true]
    refine ⟨⟨⟨hpxl, ?_⟩, hxl⟩, ⟨⟨padreEs_setPadre _ _, hpyr⟩, ?_⟩, hyr⟩
    · simp [padreEs]
    · exact hxr

theorem hijosOk_rotar_izquierda (t : Arbol) (h : hijosOk t = true) :
    hijosOk (rotar_izquierda t) = true := by
  match t with
  | .nil => exact h
  | .nodo xi xd xh xp xl .nil => exact h
  | .nodo xi xd xh xp xl (.nodo yi yd yh yp yl yr) =>
    simp only [hijosOk, Bool.and_eq_true] at h
    obtain ⟨⟨⟨hpxl, hpy⟩, hxl⟩, ⟨⟨hpyl, hpyr⟩, hyl⟩, hyr⟩ := h
    simp only [rotar_izquierda, hijosOk_actualizar, hijosOk, padreEs_actualizar,
      hijosOk_setPadre, Bool.and_eq_true]
    refine ⟨⟨⟨?_, hpyr⟩, ⟨⟨hpxl, padreEs_setPadre _ _⟩, hxl⟩, ?_⟩, hyr⟩
    · simp [padreEs]
    · exact hyl

theorem padreEs_insertarFix (q : Option Nat) (t : Arbol) (k : Rat)
    (h : padreEs q t = true) : padreEs q (insertarFix t k) = true := by
  match t with
  | .nil => exact h
  | .nodo i d ht p l r =>
    have hp : padreEs q (Arbol.nodo i d
        (1 + max (obtener_altura l) (obtener_altura r)) p l r) = true := h
    simp only [insertarFix]
    split_ifs
    · exact padreEs_rotar_derecha _ _ hp
    · exact padreEs_rotar_izquierda _ _ hp
    · exact padreEs_rotar_derecha _ _ hp
    · exact padreEs_rotar_izquierda _ _ hp
    · exact hp

theorem padreEs_eliminarFix (q : Option Nat) (t : Arbol)
    (h : padreEs q t = true) : padreEs q (eliminarFix t) = true := by
  match t with
  | .nil => exact h
  | .nodo i d ht p l r =>
    have hp : padreEs q (Arbol.nodo i d
        (1 + max (obtener_altura l) (obtener_altura r)) p l r) = true := h
    simp only [eliminarFix]
    split_ifs
    · exact padreEs_rotar_derecha _ _ hp
    · exact padreEs_rotar_derecha _ _ hp
    · exact padreEs_rotar_izquierda _ _ hp
    · exact padreEs_rotar_izquierda _ _ hp
    · exact hp

theorem hijosOk_insertarFix (t : Arbol) (k : Rat)
    (h : hijosOk t = true) : hijosOk (insertarFix t k) = true := by
  match t with
  | .nil => exact h
  | .nodo i d ht p l r =>
    simp only [hijosOk, Bool.and_eq_true] at h
    obtain ⟨⟨⟨hpl, hpr⟩, hl⟩, hr⟩ := h
    have hbase : ∀ h2 : Nat, hijosOk (Arbol.nodo i d h2 p l r) = true := by
      intro h2
      simp only [hijosOk, Bool.and_eq_true]
      exact ⟨⟨⟨hpl, hpr⟩, hl⟩, hr⟩
    simp only [insertarFix]
    split_ifs
    · exact hijosOk_rotar_derecha _ (hbase _)
    · exact hijosOk_rotar_izquierda _ (hbase _)
    · refine hijosOk_rotar_derecha _ ?_
      simp only [hijosOk, Bool.and_eq_true]
      exact ⟨⟨⟨padreEs_rotar_izquierda _ _ hpl, hpr⟩,
        hijosOk_rotar_izquierda _ hl⟩, hr⟩
    · refine hijosOk_rotar_izquierda _ ?_
      simp only [hijosOk, Bool.and_eq_true]
      exact ⟨⟨⟨hpl, padreEs_rotar_derecha _ _ hpr⟩, hl⟩,
        hijosOk_rotar_derecha _ hr⟩
    · exact hbase _

theorem hijosOk_eliminarFix (t : Arbol)
    (h : hijosOk t = true) : hijosOk (eliminarFix t) = true := by
  match t with
  | .nil => exact h
  | .nodo i d ht p l r =>
    simp only [hijosOk, Bool.and_eq_true] at h
    obtain ⟨⟨⟨hpl, hpr⟩, hl⟩, hr⟩ := h
    have hbase : ∀ h2 : Nat, hijosOk (Arbol.nodo i d h2 p l r) = true := by
      intro h2
      simp only [hijosOk, Bool.and_eq_true]
      exact ⟨⟨⟨hpl, hpr⟩, hl⟩, hr⟩
    simp only [eliminarFix]
    split_ifs
    · exact hijosOk_rotar_derecha _ (hbase _)
    · refine hijosOk_rotar_derecha _ ?_
      simp only [hijosOk, Bool.and_eq_true]
      exact ⟨⟨⟨padreEs_rotar_izquierda _ _ hpl, hpr⟩,
        hijosOk_rotar_izquierda _ hl⟩, hr⟩
    · exact hijosOk_rotar_izquierda _ (hbase _)
    · refine hijosOk_rotar_izquierda _ ?_
      simp only [hijosOk, Bool.and_eq_true]
      exact ⟨⟨⟨hpl, padreEs_rotar_derecha _ _ hpr⟩, hl⟩,
        hijosOk_rotar_derecha _ hr⟩
    · exact hbase _

theorem hijosOk_insertarRec (t : Arbol) (a b : String) (k : Rat) (f : Nat)
    (h : hijosOk t = true) : hijosOk (insertarRec t a b k f) = true := by
  induction t generalizing k with
  | nil => simp [insertarRec, hijosOk, padreEs]
  | nodo i d ht p l r ihl ihr =>
    simp only [hijosOk, Bool.and_eq_true] at h
    obtain ⟨⟨⟨hpl, hpr⟩, hl⟩, hr⟩ := h
    rw [insertarRec]
    split_ifs
    · refine hijosOk_insertarFix _ _ ?_
      simp only [hijosOk, Bool.and_eq_true]
      exact ⟨⟨⟨padreEs_setPadre _ _, hpr⟩,
        by rw [hijosOk_setPadre]; exact ihl k hl⟩, hr⟩
    · refine hijosOk_insertarFix _ _ ?_
      simp only [hijosOk, Bool.and_eq_true]
      exact ⟨⟨⟨hpl, padreEs_setPadre _ _⟩, hl⟩,
        by rw [hijosOk_setPadre]; exact ihr k hr⟩
    · refine hijosOk_insertarFix _ _ ?_
      simp only [hijosOk, Bool.and_eq_true]
      exact ⟨⟨⟨hpl, padreEs_setPadre _ _⟩, hl⟩,
        by rw [hijosOk_setPadre]; exact ihr _ hr⟩

theorem padreEs_none_insertarRec (t : Arbol) (a b : String) (k : Rat) (f : Nat)
    (h : padreEs none t = true) : padreEs none (insertarRec t a b k f) = true := by
  cases t with
  | nil => simp [insertarRec, padreEs]
  | nodo i d ht p l r =>
    rw [insertarRec]
    split_ifs <;> exact padreEs_insertarFix _ _ _ h

theorem padreEs_eliminarRec (q : Option Nat) (t : Arbol) (k : Rat)
    (h : padreEs q t = true) : padreEs q (eliminarRec t k) = true := by
  cases t with
  | nil => simpa [eliminarRec] using h
  | nodo i d ht p l r =>
    rw [eliminarRec]
    by_cases h1 : k < d.temperatura_media
    · rw [if_pos h1]
      exact padreEs_eliminarFix _ _ (by simpa [padreEs] using h)
    · rw [if_neg h1]
      by_cases h2 : d.temperatura_media < k
      · rw [if_pos h2]
        exact padreEs_eliminarFix _ _ (by simpa [padreEs] using h)
      · rw [if_neg h2]
        by_cases hc : l = .nil ∨ r = .nil
        · rw [if_pos hc]
          by_cases htemp : (if l ≠ Arbol.nil then l else r) = Arbol.nil
          · rw [if_pos htemp]
            simp [padreEs]
          · rw [if_neg htemp]
            exact padreEs_eliminarFix _ _ (by simpa [padreEs] using h)
        · rw [if_neg hc]
          exact padreEs_eliminarFix _ _ (by simpa [padreEs] using h)

theorem hijosOk_eliminarRec (t : Arbol) (k : Rat)
    (h : hijosOk t = true) : hijosOk (eliminarRec t k) = true := by
  induction t generalizing k with
  | nil => simpa [eliminarRec] using h
  | nodo i d ht p l r ihl ihr =>
    simp only [hijosOk, Bool.and_eq_true] at h
    obtain ⟨⟨⟨hpl, hpr⟩, hl⟩, hr⟩ := h
    rw [eliminarRec]
    by_cases h1 : k < d.temperatura_media
    · rw [if_pos h1]
      refine hijosOk_eliminarFix _ ?_
      simp only [hijosOk, Bool.and_eq_true]
      exact ⟨⟨⟨padreEs_eliminarRec _ _ _ hpl, hpr⟩, ihl k hl⟩, hr⟩
    · rw [if_neg h1]
      by_cases h2 : d.temperatura_media < k
      · rw [if_pos h2]
        refine hijosOk_eliminarFix _ ?_
        simp only [hijosOk, Bool.and_eq_true]
        exact ⟨⟨⟨hpl, padreEs_eliminarRec _ _ _ hpr⟩, hl⟩, ihr k hr⟩
      · rw [if_neg h2]
        by_cases hc : l = .nil ∨ r = .nil
        · rw [if_pos hc]
          by_cases htemp : (if l ≠ Arbol.nil then l else r) = Arbol.nil
          · rw [if_pos htemp]
            simp [hijosOk]
          · rw [if_neg htemp]
            refine hijosOk_eliminarFix _ ?_
            simp only [hijosOk, Bool.and_eq_true]
            refine ⟨⟨⟨padreEs_setPadre _ _, padreEs_setPadre _ _⟩, ?_⟩, ?_⟩
            · rw [hijosOk_setPadre]
              exact hl
            · rw [hijosOk_setPadre]
              exact hr
        · rw [if_neg hc]
          refine hijosOk_eliminarFix _ ?_
          simp only [hijosOk, Bool.and_eq_true]
          exact ⟨⟨⟨hpl, padreEs_eliminarRec _ _ _ hpr⟩, hl⟩, ihr _ hr⟩

theorem idsM_setPadre (q : Option Nat) (t : Arbol) :
    idsM (setPadre q t) = idsM t := by
  cases t <;> rfl

theorem idsM_actualizar (t : Arbol) :
    idsM (actualizar_altura t) = idsM t := by
  cases t <;> rfl

theorem idsM_rotar_derecha (t : Arbol) :
    idsM (rotar_derecha t) = idsM t := by
  match t with
  | .nil => rfl
  | .nodo yi yd yh yp .nil yr => rfl
  | .nodo yi yd yh yp (.nodo xi xd xh xp xl xr) yr =>
    simp only [rotar_derecha, idsM_actualizar, idsM, idsM_setPadre,
      ← Multiset.singleton_add]
    abel

theorem idsM_rotar_izquierda (t : Arbol) :
    idsM (rotar_izquierda t) = idsM t := by
  match t with
  | .nil => rfl
  | .nodo xi xd xh xp xl .nil => rfl
  | .nodo xi xd xh xp xl (.nodo yi yd yh yp yl yr) =>
    simp only [rotar_izquierda, idsM_actualizar, idsM, idsM_setPadre,
      ← Multiset.singleton_add]
    abel

theorem idsM_insertarFix (t : Arbol) (k : Rat) :
    idsM (insertarFix t k) = idsM t := by
  match t with
  | .nil => rfl
  | .nodo i d ht p l r =>
    simp only [insertarFix]
    split_ifs <;>
      simp [idsM, idsM_rotar_derecha, idsM_rotar_izquierda]

theorem idsM_eliminarFix (t : Arbol) :
    idsM (eliminarFix t) = idsM t := by
  match t with
  | .nil => rfl
  | .nodo i d ht p l r =>
    simp only [eliminarFix]
    split_ifs <;>
      simp [idsM, idsM_rotar_derecha, idsM_rotar_izquierda]

theorem idsM_insertarRec (t : Arbol) (a b : String) (k : Rat) (f : Nat) :
    idsM (insertarRec t a b k f) = f ::ₘ idsM t := by
  induction t generalizing k with
  | nil => simp [insertarRec, idsM]
  | nodo i d ht p l r ihl ihr =>
    rw [insertarRec]
    split_ifs
    · rw [idsM_insertarFix]
      simp only [idsM, idsM_setPadre, ihl k, ← Multiset.singleton_add]
      abel
    · rw [idsM_insertarFix]
      simp only [idsM, idsM_setPadre, ihr k, ← Multiset.singleton_add]
      abel
    · rw [idsM_insertarFix]
      simp only [idsM, idsM_setPadre, ihr, ← Multiset.singleton_add]
      abel

theorem idsM_eliminarRec (t : Arbol) (k : Rat) :
    idsM (eliminarRec t k) ≤ idsM t := by
  induction t generalizing k with
  | nil => simp [eliminarRec]
  | nodo i d ht p l r ihl ihr =>
    rw [eliminarRec]
    by_cases h1 : k < d.temperatura_media
    · rw [if_pos h1, idsM_eliminarFix]
      simp only [idsM]
      exact Multiset.cons_le_cons _ (add_le_add_right (ihl k) _)
    · rw [if_neg h1]
      by_cases h2 : d.temperatura_media < k
      · rw [if_pos h2, idsM_eliminarFix]
        simp only [idsM]
        exact Multiset.cons_le_cons _ (add_le_add_left (ihr k) _)
      · rw [if_neg h2]
        by_cases hc : l = .nil ∨ r = .nil
        · rw [if_pos hc]
          by_cases htemp : (if l ≠ Arbol.nil then l else r) = Arbol.nil
          · rw [if_pos htemp]
            simp [idsM]
          · rw [if_neg htemp, idsM_eliminarFix]
            simp only [idsM, idsM_setPadre]
            exact le_refl _
        · rw [if_neg hc, idsM_eliminarFix]
          simp only [idsM]
          exact Multiset.cons_le_cons _ (add_le_add_left (ihr _) _)

theorem subarbol_trans {s p t : Arbol} (h1 : Subarbol s p) (h2 : Subarbol p t) :
    Subarbol s t := by
  induction h2 with
  | refl => exact h1
  | izq i d hh pp _ ih => exact Subarbol.izq i d hh pp ih
  | der i d hh pp _ ih => exact Subarbol.der i d hh pp ih

theorem idsM_subarbol {s t : Arbol} (h : Subarbol s t) : idsM s ≤ idsM t := by
  induction h with
  | refl => exact le_refl _
  | izq i d hh pp _ ih =>
    refine le_trans ih ?_
    simp only [idsM]
    refine le_trans ?_ (Multiset.le_cons_self _ _)
    exact Multiset.le_add_right _ _
  | der i d hh pp _ ih =>
    refine le_trans ih ?_
    simp only [idsM]
    refine le_trans ?_ (Multiset.le_cons_self _ _)
    exact Multiset.le_add_left _ _

theorem idDe_mem_idsM {s t : Arbol} (hs : s ≠ .nil) (h : Subarbol s t) :
    Arbol.idDe s ∈ idsM t := by
  refine Multiset.mem_of_le (idsM_subarbol h) ?_
  cases s with
  | nil => exact absurd rfl hs
  | nodo i d ht p l r => simp [idsM, Arbol.idDe]

theorem padreDe_of_padreEs {q : Option Nat} {t : Arbol} (h : t ≠ .nil)
    (hp : padreEs q t = true) : Arbol.padreDe t = q := by
  cases t with
  | nil => exact absurd rfl h
  | nodo i d ht p l r => simpa [padreEs, Arbol.padreDe] using hp

theorem hijos_padre (t : Arbol) (hok : hijosOk t = true) :
    ∀ s, Subarbol s t → s ≠ t → s ≠ .nil →
    ∃ p, Subarbol p t ∧ p ≠ .nil ∧
      (Arbol.izquierdoDe p = s ∨ Arbol.derechoDe p = s) ∧
      Arbol.padreDe s = some (Arbol.idDe p) := by
  induction t with
  | nil =>
    intro s hs hne _
    cases hs
    exact absurd rfl hne
  | nodo i d ht p l r ihl ihr =>
    intro s hs hne hsnil
    simp only [hijosOk, Bool.and_eq_true] at hok
    obtain ⟨⟨⟨hpl, hpr⟩, hl⟩, hr⟩ := hok
    cases hs with
    | refl => exact absurd rfl hne
    | izq _ _ _ _ hsl =>
      by_cases he : s = l
      · subst he
        exact ⟨Arbol.nodo i d ht p s r, Subarbol.refl _, by simp, Or.inl rfl,
          padreDe_of_padreEs hsnil hpl⟩
      · obtain ⟨q', hq1, hq2, hq3, hq4⟩ := ihl hl s hsl he hsnil
        exact ⟨q', Subarbol.izq i d ht p hq1, hq2, hq3, hq4⟩
    | der _ _ _ _ hsr =>
      by_cases he : s = r
      · subst he
        exact ⟨Arbol.nodo i d ht p l s, Subarbol.refl _, by simp, Or.inr rfl,
          padreDe_of_padreEs hsnil hpr⟩
      · obtain ⟨q', hq1, hq2, hq3, hq4⟩ := ihr hr s hsr he hsnil
        exact ⟨q', Subarbol.der i d ht p hq1, hq2, hq3, hq4⟩

theorem subarbol_id_unico (t : Arbol) (hnd : (idsM t).Nodup) :
    ∀ s1 s2, Subarbol s1 t → Subarbol s2 t → s1 ≠ .nil → s2 ≠ .nil →
      Arbol.idDe s1 = Arbol.idDe s2 → s1 = s2 := by
  induction t with
  | nil =>
    intro s1 s2 h1 _ hn1 _ _
    cases h1
    exact absurd rfl hn1
  | nodo i d ht p l r ihl ihr =>
    intro s1 s2 h1 h2 hn1 hn2 hid
    simp only [idsM, Multiset.nodup_cons, Multiset.nodup_add] at hnd
    obtain ⟨hni, hndl, hndr, hdisj⟩ := hnd
    cases h1 with
    | refl =>
      cases h2 with
      | refl => rfl
      | izq _ _ _ _ h2l =>
        exfalso
        simp only [Arbol.idDe] at hid
        refine hni (Multiset.mem_add.mpr (Or.inl ?_))
        rw [hid]
        exact idDe_mem_idsM hn2 h2l
      | der _ _ _ _ h2r =>
        exfalso
        simp only [Arbol.idDe] at hid
        refine hni (Multiset.mem_add.mpr (Or.inr ?_))
        rw [hid]
        exact idDe_mem_idsM hn2 h2r
    | izq _ _ _ _ h1l =>
      cases h2 with
      | refl =>
        exfalso
        simp only [Arbol.idDe] at hid
        refine hni (Multiset.mem_add.mpr (Or.inl ?_))
        rw [← hid]
        exact idDe_mem_idsM hn1 h1l
      | izq _ _ _ _ h2l => exact ihl hndl s1 s2 h1l h2l hn1 hn2 hid
      | der _ _ _ _ h2r =>
        exfalso
        refine Multiset.disjoint_left.mp hdisj (idDe_mem_idsM hn1 h1l) ?_
        rw [hid]
        exact idDe_mem_idsM hn2 h2r
    | der _ _ _ _ h1r =>
      cases h2 with
      | refl =>
        exfalso
        simp only [Arbol.idDe] at hid
        refine hni (Multiset.mem_add.mpr (Or.inr ?_))
        rw [← hid]
        exact idDe_mem_idsM hn1 h1r
      | izq _ _ _ _ h2l =>
        exfalso
        refine Multiset.disjoint_left.mp hdisj (idDe_mem_idsM hn2 h2l) ?_
        rw [← hid]
        exact idDe_mem_idsM hn1 h1r
      | der _ _ _ _ h2r => exact ihr hndr s1 s2 h1r h2r hn1 hn2 hid

theorem reclamo_de_inv (t : Arbol) (hp : padresOk t = true)
    (hnd : (idsM t).Nodup) : ReclamoPadres t := by
  simp only [padresOk, Bool.and_eq_true] at hp
  obtain ⟨hroot, hok⟩ := hp
  have hrootn : Arbol.padreDe t = none := by
    cases t with
    | nil => rfl
    | nodo i d ht p l r => exact padreDe_of_padreEs (by simp) hroot
  refine ⟨hrootn, ?_⟩
  intro s hs pi hpad
  have hsnil : s ≠ .nil := by
    intro e
    rw [e] at hpad
    simp [Arbol.padreDe] at hpad
  have hsne : s ≠ t := by
    intro e
    rw [e, hrootn] at hpad
    exact Option.noConfusion hpad
  obtain ⟨p, hsub, hpnil, hchild, hpad2⟩ := hijos_padre t hok s hs hsne hsnil
  have hpi : Arbol.idDe p = pi := by
    rw [hpad] at hpad2
    exact (Option.some.inj hpad2).symm
  have hnotboth : ¬ (Arbol.izquierdoDe p = s ∧ Arbol.derechoDe p = s) := by
    rintro ⟨hL, hR⟩
    have hndp : (idsM p).Nodup := Multiset.nodup_of_le (idsM_subarbol hsub) hnd
    cases p with
    | nil => exact hpnil rfl
    | nodo j dd hh qq pl pr =>
      simp only [Arbol.izquierdoDe] at hL
      simp only [Arbol.derechoDe] at hR
      simp only [idsM, Multiset.nodup_cons, Multiset.nodup_add] at hndp
      obtain ⟨-, -, -, hdisj⟩ := hndp
      have hmem : Arbol.idDe s ∈ idsM s := by
        cases s with
        | nil => exact absurd rfl hsnil
        | nodo a1 a2 a3 a4 a5 a6 => simp [idsM, Arbol.idDe]
      rw [hL, hR] at hdisj
      exact Multiset.disjoint_left.mp hdisj hmem hmem
  refine ⟨p, hsub, hpnil, hpi, ?_, ?_⟩
  · rcases hchild with hL | hR
    · exact Or.inl ⟨hL, fun hR => hnotboth ⟨hL, hR⟩⟩
    · exact Or.inr ⟨fun hL => hnotboth ⟨hL, hR⟩, hR⟩
  · intro p' hsub' hpnil' hid'
    refine subarbol_id_unico t hnd p' p hsub' hsub hpnil' hpnil ?_
    rw [hid', hpi]

theorem inv_aplicar (s : ArbolAVL)
    (h1 : padresOk s.raiz = true) (h2 : (idsM s.raiz).Nodup)
    (h3 : ∀ i ∈ idsM s.raiz, i < s.nextId) (op : Op) :
    padresOk (aplicar s op).raiz = true ∧ (idsM (aplicar s op).raiz).Nodup ∧
      ∀ i ∈ idsM (aplicar s op).raiz, i < (aplicar s op).nextId := by
  simp only [padresOk, Bool.and_eq_true] at h1
  obtain ⟨hroot, hok⟩ := h1
  cases op with
  | ins a b k =>
    simp only [aplicar, insertar]
    refine ⟨?_, ?_, ?_⟩
    · simp only [padresOk, Bool.and_eq_true]
      exact ⟨padreEs_none_insertarRec _ _ _ _ _ hroot,
        hijosOk_insertarRec _ _ _ _ _ hok⟩
    · rw [idsM_insertarRec, Multiset.nodup_cons]
      exact ⟨fun hmem => lt_irrefl _ (h3 _ hmem), h2⟩
    · intro i hi
      rw [idsM_insertarRec] at hi
      rcases Multiset.mem_cons.mp hi with rfl | hi
      · exact Nat.lt_succ_self _
      · exact Nat.lt_succ_of_lt (h3 i hi)
  | del k =>
    simp only [aplicar]
    cases hb : buscarRec s.raiz k with
    | none =>
      simp only [eliminar, hb]
      refine ⟨?_, h2, h3⟩
      simp only [padresOk, Bool.and_eq_true]
      exact ⟨hroot, hok⟩
    | some n =>
      simp only [eliminar, hb]
      refine ⟨?_, ?_, ?_⟩
      · simp only [padresOk, Bool.and_eq_true]
        exact ⟨padreEs_eliminarRec _ _ _ hroot, hijosOk_eliminarRec _ _ hok⟩
      · exact Multiset.nodup_of_le (idsM_eliminarRec _ _) h2
      · intro i hi
        exact h3 i (Multiset.mem_of_le (idsM_eliminarRec _ _) hi)

theorem inv_ejecutar (ops : List Op) :
    padresOk (ejecutar ops).raiz = true ∧ (idsM (ejecutar ops).raiz).Nodup ∧
      ∀ i ∈ idsM (ejecutar ops).raiz, i < (ejecutar ops).nextId := by
  suffices h : ∀ s, padresOk s.raiz = true → (idsM s.raiz).Nodup →
      (∀ i ∈ idsM s.raiz, i < s.nextId) →
      padresOk (ops.foldl aplicar s).raiz = true ∧
        (idsM (ops.foldl aplicar s).raiz).Nodup ∧
        ∀ i ∈ idsM (ops.foldl aplicar s).raiz, i < (ops.foldl aplicar s).nextId by
    exact h arbolVacio rfl (by simp [arbolVacio, idsM]) (by simp [arbolVacio, idsM])
  induction ops with
  | nil =>
    intro s h1 h2 h3
    exact ⟨h1, h2, h3⟩
  | cons op ops ih =>
    intro s h1 h2 h3
    obtain ⟨h1', h2', h3'⟩ := inv_aplicar s h1 h2 h3 op
    exact ih (aplicar s op) h1' h2' h3'

/-- C5.  After every sequence of public operations applied to the fresh
index, the parent references are correct: the root's parent is absent,
and every node holding a parent reference `pi` has a unique (by object
identity) parent node with id `pi`, exactly one of whose two child slots
is that node. -/
theorem padres_correctos (ops : List Op) : ReclamoPadres (ejecutar ops).raiz := by
  obtain ⟨h1, h2, _⟩ := inv_ejecutar ops
  exact reclamo_de_inv _ h1 h2

/-- Witness for `padres_correctos` at a concrete run: after inserting
`(A,20)` then `(B,10)`, the node keyed 10 (id 1, parent reference 0) has
the root (id 0) as its unique parent, holding it in exactly one child
slot. -/
theorem padres_correctos_testigo :
    ∃ p, Subarbol p (ejecutar [Op.ins "A" "a" 20, Op.ins "B" "b" 10]).raiz ∧
      p ≠ Arbol.nil ∧ Arbol.idDe p = 0 ∧
      ((Arbol.izquierdoDe p = Arbol.nodo 1 ⟨"B", "b", 10⟩ 1 (some 0) .nil .nil ∧
        ¬ Arbol.derechoDe p = Arbol.nodo 1 ⟨"B", "b", 10⟩ 1 (some 0) .nil .nil) ∨
       (¬ Arbol.izquierdoDe p = Arbol.nodo 1 ⟨"B", "b", 10⟩ 1 (some 0) .nil .nil ∧
        Arbol.derechoDe p = Arbol.nodo 1 ⟨"B", "b", 10⟩ 1 (some 0) .nil .nil)) ∧
      ∀ p', Subarbol p' (ejecutar [Op.ins "A" "a" 20, Op.ins "B" "b" 10]).raiz →
        p' ≠ Arbol.nil → Arbol.idDe p' = 0 → p' = p := by
  have hT : (ejecutar [Op.ins "A" "a" 20, Op.ins "B" "b" 10]).raiz =
      Arbol.nodo 0 ⟨"A", "a", 20⟩ 2 none
        (Arbol.nodo 1 ⟨"B", "b", 10⟩ 1 (some 0) .nil .nil) .nil := by
    with_unfolding_all decide
  refine (padres_correctos [Op.ins "A" "a" 20, Op.ins "B" "b" 10]).2
    (Arbol.nodo 1 ⟨"B", "b", 10⟩ 1 (some 0) .nil .nil) ?_ 0 rfl
  rw [hT]
  exact Subarbol.izq 0 ⟨"A", "a", 20⟩ 2 none (Subarbol.refl _)
